import Mathlib

/-!
# Verification of the LADSPA stereo-delay plugin core

Shallow embedding of `src/rust/src/lib.rs`.  Sample amplitudes (`Data`,
`f32` in the source) are modelled as rationals, so the arithmetic of the
dry/wet blend is exact; buffer indices (`usize` in the source) are
modelled as `ℕ`, with the one subtraction that can wrap modelled
explicitly modulo `2 ^ 64` (release-mode wrapping semantics).
The float-to-integer cast `(x : f32) as usize` used for the delay
controls is modelled as `Int.toNat ∘ Int.floor`, which agrees with the
cast for the non-negative values the ports declare.
-/

attribute [local semireducible] Rat.add Rat.mul Rat.sub Rat.inv

namespace LadspaDelay

/-- Amplitude type (`Data = f32` in the source), modelled exactly. -/
abbrev Data := ℚ

/-- One stereo frame: a pair (left, right) of amplitudes. -/
abbrev Frame := Data × Data

/-- Source constant `MAX_DELAY: Data = 5.0;`. -/
def MAX_DELAY : Data := 5

/-- The plugin state (`struct Delay`). -/
structure Delay where
  sample_rate : Data
  buf : List Frame
  buf_idx : ℕ
  deriving DecidableEq

/-- Factory `fn new_delay(_, sample_rate: u64)`: fresh state with empty buffer. -/
def new_delay (sample_rate : ℕ) : Delay :=
  { sample_rate := (sample_rate : Data), buf := [], buf_idx := 0 }

/-- Activation (`fn activate`): resize the buffer to `(sample_rate * MAX_DELAY * 1.0) as usize + 1`
frames of silence and reset the cursor. -/
def Delay.activate (d : Delay) : Delay :=
  { d with
    buf := List.replicate ((⌊d.sample_rate * MAX_DELAY * 1⌋).toNat + 1) ((0 : Data), (0 : Data)),
    buf_idx := 0 }

/-- One more than `usize::MAX`. -/
def USIZE : ℕ := 2 ^ 64

/-- Wrapping `usize` subtraction (release-mode semantics of `a - b`),
valid for operands below `2 ^ 64`. -/
def usizeSub (a b : ℕ) : ℕ := (a + USIZE - b) % USIZE

/-- Seconds-to-samples conversion `(control * self.sample_rate) as usize`
of a delay control. -/
def delaySamples (c sr : Data) : ℕ := (⌊c * sr⌋).toNat

/-- The body of the `for ii in 0..sample_count` loop of `fn run`: for each
input frame, read the wet sample at `(buffer_read_idx + ii) % buf_len`,
blend it with the dry input, then store the raw input frame at
`(ii + buf_idx) % buf_len`.  Returns the output frames and the final buffer. -/
def runFrames (buf_len rL rR bufIdx : ℕ) (mL mR : Data) :
    List Frame → ℕ → List Frame → List Frame × List Frame
  | [], _, buf => ([], buf)
  | inp :: rest, ii, buf =>
      let out : Frame :=
        (inp.1 * (1 - mL) + mL * (buf.getD ((rL + ii) % buf_len) (0, 0)).1,
         inp.2 * (1 - mR) + mR * (buf.getD ((rR + ii) % buf_len) (0, 0)).2)
      let r := runFrames buf_len rL rR bufIdx mL mR rest (ii + 1)
                 (buf.set ((ii + bufIdx) % buf_len) inp)
      (out :: r.1, r.2)

/-- Processing (`fn run`): convert the delay controls to sample counts, compute the two
read bases `buf_idx + buf.len() - delay`, process every frame, then advance
the cursor by the block size modulo the buffer length. -/
def Delay.run (d : Delay) (input : List Frame) (delayL delayR dryWetL dryWetR : Data) :
    List Frame × Delay :=
  let delay : ℕ × ℕ := (delaySamples delayL d.sample_rate, delaySamples delayR d.sample_rate)
  let buffer_read_idx : ℕ × ℕ :=
    (usizeSub (d.buf_idx + d.buf.length) delay.1,
     usizeSub (d.buf_idx + d.buf.length) delay.2)
  let buf_len := d.buf.length
  let r := runFrames buf_len buffer_read_idx.1 buffer_read_idx.2 d.buf_idx
             dryWetL dryWetR input 0 d.buf
  (r.1, { d with buf := r.2, buf_idx := (d.buf_idx + input.length) % buf_len })

/-- The write half of the loop in isolation: store frame `j` of the list at
storage slot `(ii + j + bufIdx) % buf_len`.  Used to describe the buffer
contents a given frame's read observes. -/
def writeFrames (bufIdx buf_len : ℕ) : List Frame → ℕ → List Frame → List Frame
  | [], _, buf => buf
  | inp :: rest, ii, buf =>
      writeFrames bufIdx buf_len rest (ii + 1) (buf.set ((ii + bufIdx) % buf_len) inp)

/-- Sequential processing of a list of blocks, threading the plugin state
and concatenating the outputs. -/
def runBlocks (delayL delayR dryWetL dryWetR : Data) :
    Delay → List (List Frame) → List Frame × Delay
  | d, [] => ([], d)
  | d, b :: rest =>
      let r := d.run b delayL delayR dryWetL dryWetR
      let r2 := runBlocks delayL delayR dryWetL dryWetR r.2 rest
      (r.1 ++ r2.1, r2.2)

/-! ## Generic list lemmas -/

theorem getD_set_self {α : Type} (l : List α) (i : ℕ) (x d : α) (h : i < l.length) :
    (l.set i x).getD i d = x := by
  induction l generalizing i with
  | nil => simp at h
  | cons a t ih =>
      cases i with
      | zero => simp [List.set, List.getD]
      | succ j =>
          simp only [List.set, List.getD_cons_succ]
          exact ih j (by simpa using h)

theorem getD_set_other {α : Type} (l : List α) (i j : ℕ) (x d : α) (h : i ≠ j) :
    (l.set i x).getD j d = l.getD j d := by
  induction l generalizing i j with
  | nil => simp [List.set]
  | cons a t ih =>
      cases i with
      | zero =>
          cases j with
          | zero => exact absurd rfl h
          | succ k => simp [List.set, List.getD_cons_succ]
      | succ m =>
          cases j with
          | zero => simp [List.set, List.getD_cons_zero]
          | succ k =>
              simp only [List.set, List.getD_cons_succ]
              exact ih m k (fun hc => h (by rw [hc]))

theorem set_getD_eq (l : List α) (i : ℕ) (d : α) :
    l.set i (l.getD i d) = l := by
  induction l generalizing i with
  | nil => simp
  | cons a t ih =>
      cases i with
      | zero => simp [List.set, List.getD_cons_zero]
      | succ j =>
          simp only [List.set, List.getD_cons_succ, List.cons.injEq, true_and]
          simpa [List.getD] using ih j

theorem getD_replicate_self {α : Type} (n i : ℕ) (x d : α) (h : i < n) :
    (List.replicate n x).getD i d = x := by
  induction n generalizing i with
  | zero => simp at h
  | succ m ih =>
      cases i with
      | zero => simp [List.replicate, List.getD_cons_zero]
      | succ j =>
          simp only [List.replicate, List.getD_cons_succ]
          exact ih j (by omega)

theorem list_ext_getD {α : Type} (d : α) (l₁ l₂ : List α)
    (hl : l₁.length = l₂.length)
    (h : ∀ i, i < l₁.length → l₁.getD i d = l₂.getD i d) : l₁ = l₂ := by
  induction l₁ generalizing l₂ with
  | nil => cases l₂ with
      | nil => rfl
      | cons b t => simp at hl
  | cons a t ih =>
      cases l₂ with
      | nil => simp at hl
      | cons b t₂ =>
          have h0 := h 0 (by simp)
          simp only [List.getD_cons_zero] at h0
          have ht : t = t₂ := by
            refine ih t₂ (by simpa using hl) ?_
            intro i hi
            have := h (i + 1) (by simpa using Nat.succ_lt_succ hi)
            simpa only [List.getD_cons_succ] using this
          rw [h0, ht]

/-! ## Modular arithmetic lemmas -/

theorem usizeSub_eq_sub (a b : ℕ) (hb : b ≤ a) (ha : a < USIZE) :
    usizeSub a b = a - b := by
  unfold usizeSub
  have h1 : a + USIZE - b = USIZE + (a - b) := by omega
  rw [h1, Nat.add_mod_left, Nat.mod_eq_of_lt (by omega)]

theorem mod_shift_ne (L a t : ℕ) (h0 : 0 < t) (hL : t < L) :
    (a + t) % L ≠ a % L := by
  intro h
  have hr : a % L < L := Nat.mod_lt _ (by omega)
  have ht : t % L = t := Nat.mod_eq_of_lt hL
  rw [Nat.add_mod, ht] at h
  rcases Nat.lt_or_ge (a % L + t) L with hlt | hge
  · rw [Nat.mod_eq_of_lt hlt] at h
    omega
  · have h2 : (a % L + t) % L = a % L + t - L := by
      rw [Nat.mod_eq_sub_mod hge, Nat.mod_eq_of_lt (by omega)]
    rw [h2] at h
    omega

theorem mod_add_cancel_left (a c L : ℕ) : (a % L + c) % L = (a + c) % L :=
  Nat.mod_add_mod a L c

/-! ## Structure of the processing loop -/

theorem writeFrames_length (cur L : ℕ) (xs : List Frame) (ii : ℕ) (b : List Frame) :
    (writeFrames cur L xs ii b).length = b.length := by
  induction xs generalizing ii b with
  | nil => rfl
  | cons f rest ih => simp [writeFrames, ih, List.length_set]

theorem writeFrames_append (cur L : ℕ) (xs ys : List Frame) (ii : ℕ) (b : List Frame) :
    writeFrames cur L (xs ++ ys) ii b
      = writeFrames cur L ys (ii + xs.length) (writeFrames cur L xs ii b) := by
  induction xs generalizing ii b with
  | nil => simp [writeFrames]
  | cons f rest ih =>
      simp only [List.cons_append, writeFrames, List.length_cons, List.append_eq]
      rw [ih]
      have e : ii + 1 + rest.length = ii + (rest.length + 1) := by omega
      rw [e]

theorem writeFrames_notouch (cur L : ℕ) (xs : List Frame) (ii : ℕ) (b : List Frame)
    (s : ℕ) (d : Frame) (h : ∀ j, j < xs.length → (ii + j + cur) % L ≠ s) :
    (writeFrames cur L xs ii b).getD s d = b.getD s d := by
  induction xs generalizing ii b with
  | nil => rfl
  | cons f rest ih =>
      simp only [writeFrames]
      rw [ih (ii + 1) _ (fun j hj => by
        have hj1 := h (j + 1) (by simp only [List.length_cons]; omega)
        have e : ii + (j + 1) + cur = ii + 1 + j + cur := by omega
        rw [e] at hj1
        exact hj1)]
      exact getD_set_other _ _ _ _ _ (by
        have := h 0 (by simp)
        simpa using this)

theorem writeFrames_take_succ (cur L : ℕ) (input : List Frame) (i ii : ℕ) (b : List Frame)
    (hi : i < input.length) :
    writeFrames cur L (input.take (i + 1)) ii b
      = (writeFrames cur L (input.take i) ii b).set ((ii + i + cur) % L)
          (input.getD i (0, 0)) := by
  induction input generalizing i ii b with
  | nil => simp at hi
  | cons f rest ih =>
      cases i with
      | zero => simp [writeFrames, List.getD_cons_zero]
      | succ k =>
          simp only [List.take_succ_cons, writeFrames, List.getD_cons_succ]
          rw [ih k (ii + 1) _ (by simp only [List.length_cons] at hi; omega)]
          have e : ii + 1 + k = ii + (k + 1) := by omega
          rw [e]

theorem runFrames_length (L rL rR cur : ℕ) (mL mR : Data) (input : List Frame)
    (ii : ℕ) (b : List Frame) :
    (runFrames L rL rR cur mL mR input ii b).1.length = input.length := by
  induction input generalizing ii b with
  | nil => rfl
  | cons f rest ih => simp [runFrames, ih]

theorem runFrames_snd (L rL rR cur : ℕ) (mL mR : Data) (input : List Frame)
    (ii : ℕ) (b : List Frame) :
    (runFrames L rL rR cur mL mR input ii b).2 = writeFrames cur L input ii b := by
  induction input generalizing ii b with
  | nil => rfl
  | cons f rest ih => simp [runFrames, writeFrames, ih]

theorem runFrames_getD (L rL rR cur : ℕ) (mL mR : Data) (input : List Frame) (ii : ℕ)
    (b : List Frame) (k : ℕ) (hk : k < input.length) :
    (runFrames L rL rR cur mL mR input ii b).1.getD k (0, 0)
      = ((input.getD k (0, 0)).1 * (1 - mL)
           + mL * ((writeFrames cur L (input.take k) ii b).getD
               ((rL + (ii + k)) % L) (0, 0)).1,
         (input.getD k (0, 0)).2 * (1 - mR)
           + mR * ((writeFrames cur L (input.take k) ii b).getD
               ((rR + (ii + k)) % L) (0, 0)).2) := by
  induction input generalizing ii b k with
  | nil => simp at hk
  | cons f rest ih =>
      cases k with
      | zero => simp [runFrames, writeFrames, List.getD_cons_zero]
      | succ k' =>
          simp only [runFrames, List.getD_cons_succ, List.take_succ_cons, writeFrames]
          rw [ih (ii + 1) _ k' (by simp only [List.length_cons] at hk; omega)]
          have e : ii + 1 + k' = ii + (k' + 1) := by omega
          rw [e]

theorem runFrames_congr (L rL rR cur rL' rR' cur' : ℕ) (mL mR : Data) (input : List Frame)
    (ii ii' : ℕ) (b : List Frame)
    (h1 : (rL + ii) % L = (rL' + ii') % L)
    (h2 : (rR + ii) % L = (rR' + ii') % L)
    (h3 : (ii + cur) % L = (ii' + cur') % L) :
    runFrames L rL rR cur mL mR input ii b = runFrames L rL' rR' cur' mL mR input ii' b := by
  induction input generalizing ii ii' b with
  | nil => rfl
  | cons f rest ih =>
      have hh1 : (rL + (ii + 1)) % L = (rL' + (ii' + 1)) % L := by
        have := congrArg (fun x => (x + 1) % L) h1
        simpa [Nat.mod_add_mod, Nat.add_assoc] using this
      have hh2 : (rR + (ii + 1)) % L = (rR' + (ii' + 1)) % L := by
        have := congrArg (fun x => (x + 1) % L) h2
        simpa [Nat.mod_add_mod, Nat.add_assoc] using this
      have hh3 : (ii + 1 + cur) % L = (ii' + 1 + cur') % L := by
        have := congrArg (fun x => (x + 1) % L) h3
        have e1 : ii + cur + 1 = ii + 1 + cur := by omega
        have e2 : ii' + cur' + 1 = ii' + 1 + cur' := by omega
        simpa [Nat.mod_add_mod, e1, e2] using this
      simp only [runFrames]
      rw [h1, h2, h3, ih (ii + 1) (ii' + 1) _ hh1 hh2 hh3]

theorem runFrames_append (L rL rR cur : ℕ) (mL mR : Data) (xs ys : List Frame)
    (ii : ℕ) (b : List Frame) :
    runFrames L rL rR cur mL mR (xs ++ ys) ii b
      = ((runFrames L rL rR cur mL mR xs ii b).1
           ++ (runFrames L rL rR cur mL mR ys (ii + xs.length)
                 (runFrames L rL rR cur mL mR xs ii b).2).1,
         (runFrames L rL rR cur mL mR ys (ii + xs.length)
             (runFrames L rL rR cur mL mR xs ii b).2).2) := by
  induction xs generalizing ii b with
  | nil => simp [runFrames]
  | cons f rest ih =>
      simp only [List.cons_append, runFrames, List.length_cons, List.append_eq, ih]
      have e : ii + 1 + rest.length = ii + (rest.length + 1) := by omega
      rw [e]

theorem writeFrames_getD_last (cur L : ℕ) (input : List Frame) (b : List Frame)
    (hb : b.length = L) (hL : 0 < L) (i : ℕ) (hi : i < input.length)
    (hN : input.length ≤ i + L) :
    (writeFrames cur L input 0 b).getD ((i + cur) % L) (0, 0) = input.getD i (0, 0) := by
  conv_lhs => rw [← List.take_append_drop (i + 1) input]
  rw [writeFrames_append]
  have hlt : (input.take (i + 1)).length = i + 1 := by
    rw [List.length_take]
    omega
  rw [writeFrames_notouch _ _ _ _ _ _ _ (by
    intro j hj
    rw [List.length_drop] at hj
    rw [hlt]
    have e : 0 + (i + 1) + j + cur = i + cur + (j + 1) := by omega
    rw [e]
    exact mod_shift_ne L (i + cur) (j + 1) (by omega) (by omega))]
  rw [writeFrames_take_succ _ _ _ _ _ _ hi]
  have e2 : 0 + i + cur = i + cur := by omega
  rw [e2]
  exact getD_set_self _ _ _ _ (by
    rw [writeFrames_length, hb]
    exact Nat.mod_lt _ hL)

theorem run_preserves_buf_length (d : Delay) (input : List Frame) (dl dr ml mr : Data) :
    ((d.run input dl dr ml mr).2).buf.length = d.buf.length := by
  simp [Delay.run, runFrames_snd, writeFrames_length]

theorem activate_buf_eq (sr : ℕ) :
    ((new_delay sr).activate).buf = List.replicate (5 * sr + 1) ((0 : Data), (0 : Data)) := by
  simp only [new_delay, Delay.activate, MAX_DELAY]
  congr 1
  have h : ((sr : ℚ) * 5 * 1) = ((5 * sr : ℕ) : ℚ) := by push_cast; ring
  rw [h, Int.floor_natCast]
  omega

theorem activate_buf_length (sr : ℕ) :
    ((new_delay sr).activate).buf.length = 5 * sr + 1 := by
  rw [activate_buf_eq, List.length_replicate]

theorem delaySamples_le (c : Data) (sr : ℕ) (hc5 : c ≤ 5) :
    delaySamples c (sr : ℚ) ≤ 5 * sr := by
  unfold delaySamples
  have h1 : c * (sr : ℚ) ≤ 5 * (sr : ℚ) :=
    mul_le_mul_of_nonneg_right hc5 (by positivity)
  have h2 : ⌊c * (sr : ℚ)⌋ ≤ ⌊(5 : ℚ) * (sr : ℚ)⌋ := Int.floor_le_floor h1
  have h3 : ((5 : ℚ) * (sr : ℚ)) = ((5 * sr : ℕ) : ℚ) := by push_cast; ring
  rw [h3, Int.floor_natCast] at h2
  exact Int.toNat_le.mpr h2

/-! ## Claim theorems -/

/-- C1: for an activated state with buffer length `L`, cursor `cur` and a block of
`N` frames, with converted delays that do not underflow the read-base subtraction,
the processed output at frame `i` and channel `c` is
`input[i][c] * (1 - m_c) + m_c * wet`, where `wet` is channel `c` of the buffer
frame at storage index `(cur + L - floor(d_c * sample_rate) + i) % L` as the buffer
stood after the writes of frames `0 .. i-1` (read before frame `i`'s own write);
the raw input frame `i` is stored at index `(cur + i) % L` (and still there at block
end when at most `L` frames follow it); and the final cursor is `(cur + N) % L`. -/
theorem run_block_characterization (d : Delay) (input : List Frame) (dL dR mL mR : Data)
    (hL : 0 < d.buf.length)
    (hsz : d.buf_idx + d.buf.length < USIZE)
    (hDL : delaySamples dL d.sample_rate ≤ d.buf_idx + d.buf.length)
    (hDR : delaySamples dR d.sample_rate ≤ d.buf_idx + d.buf.length) :
    (d.run input dL dR mL mR).1.length = input.length
      ∧ (∀ i, i < input.length →
          (d.run input dL dR mL mR).1.getD i (0, 0)
            = ((input.getD i (0, 0)).1 * (1 - mL)
                 + mL * ((writeFrames d.buf_idx d.buf.length (input.take i) 0 d.buf).getD
                     ((d.buf_idx + d.buf.length - delaySamples dL d.sample_rate + i)
                       % d.buf.length) (0, 0)).1,
               (input.getD i (0, 0)).2 * (1 - mR)
                 + mR * ((writeFrames d.buf_idx d.buf.length (input.take i) 0 d.buf).getD
                     ((d.buf_idx + d.buf.length - delaySamples dR d.sample_rate + i)
                       % d.buf.length) (0, 0)).2))
      ∧ (∀ i, i < input.length → input.length ≤ i + d.buf.length →
          (d.run input dL dR mL mR).2.buf.getD ((d.buf_idx + i) % d.buf.length) (0, 0)
            = input.getD i (0, 0))
      ∧ (d.run input dL dR mL mR).2.buf_idx = (d.buf_idx + input.length) % d.buf.length := by
  have hrl : usizeSub (d.buf_idx + d.buf.length) (delaySamples dL d.sample_rate)
      = d.buf_idx + d.buf.length - delaySamples dL d.sample_rate :=
    usizeSub_eq_sub _ _ hDL hsz
  have hrr : usizeSub (d.buf_idx + d.buf.length) (delaySamples dR d.sample_rate)
      = d.buf_idx + d.buf.length - delaySamples dR d.sample_rate :=
    usizeSub_eq_sub _ _ hDR hsz
  refine ⟨?_, ?_, ?_, ?_⟩
  · simp [Delay.run, runFrames_length]
  · intro i hi
    simp only [Delay.run]
    rw [runFrames_getD _ _ _ _ _ _ _ _ _ i hi, hrl, hrr]
    have e : 0 + i = i := by omega
    rw [e]
  · intro i hi hn
    simp only [Delay.run, runFrames_snd]
    have e : (d.buf_idx + i) % d.buf.length = (i + d.buf_idx) % d.buf.length := by
      rw [Nat.add_comm]
    rw [e]
    exact writeFrames_getD_last _ _ _ _ rfl hL i hi hn
  · simp [Delay.run]

/-- Witness for C1 at sample rate 1 (buffer length 6), a two-frame block,
left delay 1 s and right delay 0 s. -/
theorem run_block_characterization_witness :
    (0 < ((new_delay 1).activate).buf.length
        ∧ ((new_delay 1).activate).buf_idx + ((new_delay 1).activate).buf.length < USIZE
        ∧ delaySamples 1 ((new_delay 1).activate).sample_rate
            ≤ ((new_delay 1).activate).buf_idx + ((new_delay 1).activate).buf.length
        ∧ delaySamples 0 ((new_delay 1).activate).sample_rate
            ≤ ((new_delay 1).activate).buf_idx + ((new_delay 1).activate).buf.length)
      ∧ (((new_delay 1).activate).run [(1, 1), (2, 2)] 1 0 1 0).1.length = 2 :=
  ⟨⟨by decide, by decide, by decide, by decide⟩,
   (run_block_characterization ((new_delay 1).activate) [(1, 1), (2, 2)] 1 0 1 0
      (by decide) (by decide) (by decide) (by decide)).1⟩

/-- C7: with both dry/wet coefficients 0 the output equals the input exactly,
frame for frame, for every state and every delay setting. -/
theorem full_dry_passthrough (d : Delay) (input : List Frame) (delayL delayR : Data) :
    (d.run input delayL delayR 0 0).1 = input := by
  have h : ∀ (L rL rR cur : ℕ) (inp : List Frame) (ii : ℕ) (b : List Frame),
      (runFrames L rL rR cur 0 0 inp ii b).1 = inp := by
    intro L rL rR cur inp
    induction inp with
    | nil => intro ii b; rfl
    | cons f rest ih =>
        intro ii b
        simp only [runFrames, ih, List.cons.injEq, and_true]
        obtain ⟨x, y⟩ := f
        simp
  simp [Delay.run, h]

/-- C5: activation allocates exactly `floor(sample_rate * 5.0) + 1 = 5 * sr + 1`
frames of silence, resets the cursor to 0, and no processing call ever changes
the buffer length. -/
theorem activate_buffer_spec :
    (∀ sr : ℕ,
        ((new_delay sr).activate).buf = List.replicate (5 * sr + 1) ((0 : Data), (0 : Data))
          ∧ ((new_delay sr).activate).buf_idx = 0)
      ∧ ∀ (d : Delay) (input : List Frame) (dl dr ml mr : Data),
          ((d.run input dl dr ml mr).2).buf.length = d.buf.length := by
  exact ⟨fun sr => ⟨activate_buf_eq sr, rfl⟩,
    fun d input dl dr ml mr => run_preserves_buf_length _ _ _ _ _ _⟩

/-- C9 counterexample: at the non-positive sample rate 0, activation does not
fail: it allocates a 1-frame buffer and processing proceeds normally. -/
theorem activation_never_fails_counterexample :
    ((new_delay 0).activate).buf.length = 1
      ∧ (((new_delay 0).activate).run [(3, 3)] 0 0 0 0).1 = [(3, 3)]
      ∧ (((new_delay 0).activate).run [(3, 3)] 0 0 0 0).2.buf_idx = 0 :=
  ⟨by decide, by decide, by decide⟩

/-- C9 amended: activation never fails; for every sample rate (a `u64`, hence
including 0) it succeeds, allocating `5 * sr + 1 ≥ 1` frames and resetting the
cursor, with no sample-rate validation anywhere. -/
theorem activation_total (sr : ℕ) :
    0 < ((new_delay sr).activate).buf.length
      ∧ ((new_delay sr).activate).buf.length = 5 * sr + 1
      ∧ ((new_delay sr).activate).buf_idx = 0 := by
  refine ⟨?_, activate_buf_length sr, rfl⟩
  rw [activate_buf_length sr]
  omega

/-- C10: activation resets the cursor to 0 (inside the nonempty buffer), and
every processing call leaves the cursor at `(cur + N) % L`, reduced modulo the
buffer length exactly once at the end of the block, hence strictly inside the
buffer. -/
theorem cursor_invariant (d : Delay) (input : List Frame) (dl dr ml mr : Data)
    (h : 0 < d.buf.length) :
    ((d.activate).buf_idx = 0 ∧ 0 < (d.activate).buf.length)
      ∧ (d.run input dl dr ml mr).2.buf_idx = (d.buf_idx + input.length) % d.buf.length
      ∧ (d.run input dl dr ml mr).2.buf_idx < (d.run input dl dr ml mr).2.buf.length := by
  refine ⟨⟨rfl, ?_⟩, ?_, ?_⟩
  · simp [Delay.activate]
  · simp [Delay.run]
  · rw [run_preserves_buf_length]
    simp only [Delay.run]
    exact Nat.mod_lt _ h

/-- Witness for C10 at sample rate 1 with a one-frame block. -/
theorem cursor_invariant_witness :
    0 < ((new_delay 1).activate).buf.length
      ∧ (((new_delay 1).activate).run [(1, 2)] 0 0 0 0).2.buf_idx
          = (((new_delay 1).activate).buf_idx + 1) % ((new_delay 1).activate).buf.length :=
  ⟨by decide, (cursor_invariant ((new_delay 1).activate) [(1, 2)] 0 0 0 0 (by decide)).2.1⟩

/-- C8: for an activated state (buffer of `5 * sr + 1` frames, cursor in range)
and control values inside their declared ranges (delay in `[0, 5]` s, mix in
`[0, 1]`), processing cannot fail at runtime: the modulus is nonzero, the
converted delay counts are strictly below the buffer length, the read-base
subtraction `buf_idx + buf_len - delay` never underflows (so the wrapping
subtraction equals the exact one), every read and write index is in bounds,
and the final cursor is again in range. -/
theorem run_in_range_safe (sr : ℕ) (d : Delay) (input : List Frame) (dL dR mL mR : Data)
    (hsr : d.sample_rate = (sr : ℚ))
    (hlen : d.buf.length = 5 * sr + 1)
    (hcur : d.buf_idx < d.buf.length)
    (hbig : d.buf_idx + d.buf.length < USIZE)
    (hdL0 : 0 ≤ dL) (hdL5 : dL ≤ 5) (hdR0 : 0 ≤ dR) (hdR5 : dR ≤ 5)
    (hmL0 : 0 ≤ mL) (hmL1 : mL ≤ 1) (hmR0 : 0 ≤ mR) (hmR1 : mR ≤ 1) :
    d.buf.length ≠ 0
      ∧ delaySamples dL d.sample_rate < d.buf.length
      ∧ delaySamples dR d.sample_rate < d.buf.length
      ∧ delaySamples dL d.sample_rate ≤ d.buf_idx + d.buf.length
      ∧ delaySamples dR d.sample_rate ≤ d.buf_idx + d.buf.length
      ∧ usizeSub (d.buf_idx + d.buf.length) (delaySamples dL d.sample_rate)
          = d.buf_idx + d.buf.length - delaySamples dL d.sample_rate
      ∧ usizeSub (d.buf_idx + d.buf.length) (delaySamples dR d.sample_rate)
          = d.buf_idx + d.buf.length - delaySamples dR d.sample_rate
      ∧ (∀ i : ℕ,
          (usizeSub (d.buf_idx + d.buf.length) (delaySamples dL d.sample_rate) + i)
              % d.buf.length < d.buf.length
            ∧ (usizeSub (d.buf_idx + d.buf.length) (delaySamples dR d.sample_rate) + i)
              % d.buf.length < d.buf.length
            ∧ (i + d.buf_idx) % d.buf.length < d.buf.length)
      ∧ (d.run input dL dR mL mR).2.buf_idx < d.buf.length := by
  have h1 : delaySamples dL (sr : ℚ) ≤ 5 * sr := delaySamples_le dL sr hdL5
  have h2 : delaySamples dR (sr : ℚ) ≤ 5 * sr := delaySamples_le dR sr hdR5
  rw [hsr]
  refine ⟨by omega, by omega, by omega, by omega, by omega, ?_, ?_, ?_, ?_⟩
  · exact usizeSub_eq_sub _ _ (by omega) hbig
  · exact usizeSub_eq_sub _ _ (by omega) hbig
  · exact fun i => ⟨Nat.mod_lt _ (by omega), Nat.mod_lt _ (by omega), Nat.mod_lt _ (by omega)⟩
  · simp only [Delay.run]
    exact Nat.mod_lt _ (by omega)

/-- Witness for C8 at sample rate 1, delays 5 s and 0 s, mixes 1/2 and 1. -/
theorem run_in_range_safe_witness :
    (((new_delay 1).activate).sample_rate = ((1 : ℕ) : ℚ)
        ∧ ((new_delay 1).activate).buf.length = 5 * 1 + 1
        ∧ ((new_delay 1).activate).buf_idx < ((new_delay 1).activate).buf.length
        ∧ ((new_delay 1).activate).buf_idx + ((new_delay 1).activate).buf.length < USIZE
        ∧ (0 : Data) ≤ 5 ∧ (5 : Data) ≤ 5 ∧ (0 : Data) ≤ 0 ∧ (0 : Data) ≤ 5
        ∧ (0 : Data) ≤ 1 / 2 ∧ (1 / 2 : Data) ≤ 1 ∧ (0 : Data) ≤ 1 ∧ (1 : Data) ≤ 1)
      ∧ ((new_delay 1).activate).buf.length ≠ 0 :=
  ⟨⟨by decide, by decide, by decide, by decide, by decide, by decide, by decide, by decide,
    by decide, by decide, by decide, by decide⟩,
   (run_in_range_safe 1 ((new_delay 1).activate) [(1, 1)] 5 0 (1 / 2) 1
      (by decide) (by decide) (by decide) (by decide) (by decide) (by decide) (by decide)
      (by decide) (by decide) (by decide) (by decide) (by decide)).1⟩

/-- C2 counterexample: on a freshly activated state (sample rate 1, buffer
length 6), delay 0 s with mix 1 does not reproduce the input: the one-frame
block `[(2, 3)]` yields `[(0, 0)]`, the buffer content read at the very slot the
frame is about to be written to. -/
theorem zero_delay_counterexample :
    (((new_delay 1).activate).run [(2, 3)] 0 0 1 1).1 = [(0, 0)]
      ∧ (((new_delay 1).activate).run [(2, 3)] 0 0 1 1).1 ≠ [(2, 3)] :=
  ⟨by decide, by decide⟩

/-- C2 amended: with delay 0 and mix 1 the wet tap reads the slot that frame
is about to overwrite, i.e. the frame stored a full buffer length earlier —
on a freshly activated buffer a block of at most `L` frames therefore produces
silence, not the input (delay 0 behaves as a delay of `L` samples, not 0). -/
theorem zero_delay_fresh_silence (sr : ℕ) (input : List Frame)
    (hN : input.length ≤ 5 * sr + 1) (hsz : 5 * sr + 1 < USIZE) :
    (((new_delay sr).activate).run input 0 0 1 1).1
      = List.replicate input.length ((0 : Data), (0 : Data)) := by
  have h1 : ((new_delay sr).activate).buf_idx = 0 := rfl
  have h2 : ((new_delay sr).activate).sample_rate = (sr : ℚ) := rfl
  have h3 := activate_buf_eq sr
  have hd0 : delaySamples 0 ((sr : ℕ) : ℚ) = 0 := by simp [delaySamples]
  simp only [Delay.run, h1, h2, h3, List.length_replicate, hd0]
  have hus : usizeSub (0 + (5 * sr + 1)) 0 = 5 * sr + 1 := by
    rw [usizeSub_eq_sub _ _ (by omega) (by omega)]
    omega
  rw [hus]
  refine list_ext_getD ((0 : Data), (0 : Data)) _ _ ?_ ?_
  · rw [runFrames_length, List.length_replicate]
  · intro i hi
    rw [runFrames_length] at hi
    rw [runFrames_getD _ _ _ _ _ _ _ _ _ i hi]
    have hidx : (5 * sr + 1 + (0 + i)) % (5 * sr + 1) = i := by
      have e : 5 * sr + 1 + (0 + i) = i + (5 * sr + 1) := by omega
      rw [e, Nat.add_mod_right, Nat.mod_eq_of_lt (by omega)]
    rw [hidx]
    rw [writeFrames_notouch _ _ _ _ _ _ _ (fun j hj => by
      rw [List.length_take] at hj
      have e : 0 + j + 0 = j := by omega
      rw [e, Nat.mod_eq_of_lt (by omega)]
      omega)]
    rw [getD_replicate_self _ _ _ _ (by omega),
      getD_replicate_self _ _ _ _ (by omega)]
    simp

/-- Witness for the amended C2 at sample rate 1 with a one-frame block. -/
theorem zero_delay_fresh_silence_witness :
    ([((2 : Data), (3 : Data))].length ≤ 5 * 1 + 1 ∧ 5 * 1 + 1 < USIZE)
      ∧ (((new_delay 1).activate).run [(2, 3)] 0 0 1 1).1
          = List.replicate [((2 : Data), (3 : Data))].length ((0 : Data), (0 : Data)) :=
  ⟨⟨by decide, by decide⟩, zero_delay_fresh_silence 1 [(2, 3)] (by decide) (by decide)⟩

/-- C3 counterexample: on a state with buffer length 6 whose buffer holds the
frames `(1,1) … (6,6)` (reached from activation by one 6-frame block), a delay
control of 6 s converts to `offset_back = 6 = L`; full-wet processing then
outputs `(1,1)` — the frame stored 6 samples back — while the maximum
representable delay `L - 1 = 5` outputs `(2,2)`.  The effective delay therefore
does not saturate at `L - 1`. -/
theorem delay_saturation_counterexample :
    delaySamples 6 ((((new_delay 1).activate).run
          [(1, 1), (2, 2), (3, 3), (4, 4), (5, 5), (6, 6)] 0 0 0 0).2).sample_rate = 6
      ∧ ((((new_delay 1).activate).run
          [(1, 1), (2, 2), (3, 3), (4, 4), (5, 5), (6, 6)] 0 0 0 0).2).buf.length = 6
      ∧ (((((new_delay 1).activate).run
            [(1, 1), (2, 2), (3, 3), (4, 4), (5, 5), (6, 6)] 0 0 0 0).2).run
          [(9, 9)] 6 6 1 1).1 = [(1, 1)]
      ∧ (((((new_delay 1).activate).run
            [(1, 1), (2, 2), (3, 3), (4, 4), (5, 5), (6, 6)] 0 0 0 0).2).run
          [(9, 9)] 5 5 1 1).1 = [(2, 2)]
      ∧ (((((new_delay 1).activate).run
            [(1, 1), (2, 2), (3, 3), (4, 4), (5, 5), (6, 6)] 0 0 0 0).2).run
          [(9, 9)] 6 6 1 1).1
          ≠ (((((new_delay 1).activate).run
            [(1, 1), (2, 2), (3, 3), (4, 4), (5, 5), (6, 6)] 0 0 0 0).2).run
          [(9, 9)] 5 5 1 1).1 :=
  ⟨by decide, by decide, by decide, by decide, by decide⟩

/-- C3 amended: a converted delay count at or above the buffer length is still
reduced into bounds by the modular arithmetic (every read index is `< L`, no
out-of-bounds access), but the effective delay wraps modulo `L` instead of
saturating: as long as the read-base subtraction does not underflow, a delay of
`D ∈ [L, cur + L]` samples processes identically to one of `D - L` samples. -/
theorem delay_beyond_buffer_aliases (d : Delay) (input : List Frame)
    (dA dB dA2 dB2 mL mR : Data)
    (hL : 0 < d.buf.length)
    (hsz : d.buf_idx + d.buf.length < USIZE)
    (hA : delaySamples dA d.sample_rate ≤ d.buf_idx + d.buf.length)
    (hA2 : d.buf.length ≤ delaySamples dA d.sample_rate)
    (hAeq : delaySamples dA2 d.sample_rate = delaySamples dA d.sample_rate - d.buf.length)
    (hB : delaySamples dB d.sample_rate ≤ d.buf_idx + d.buf.length)
    (hB2 : d.buf.length ≤ delaySamples dB d.sample_rate)
    (hBeq : delaySamples dB2 d.sample_rate = delaySamples dB d.sample_rate - d.buf.length) :
    (∀ i : ℕ,
        (usizeSub (d.buf_idx + d.buf.length) (delaySamples dA d.sample_rate) + i)
            % d.buf.length < d.buf.length)
      ∧ d.run input dA dB mL mR = d.run input dA2 dB2 mL mR := by
  refine ⟨fun i => Nat.mod_lt _ hL, ?_⟩
  have hA2le : delaySamples dA2 d.sample_rate ≤ d.buf_idx + d.buf.length := by omega
  have hB2le : delaySamples dB2 d.sample_rate ≤ d.buf_idx + d.buf.length := by omega
  have hrA := usizeSub_eq_sub _ _ hA hsz
  have hrB := usizeSub_eq_sub _ _ hB hsz
  have hrA2 : usizeSub (d.buf_idx + d.buf.length)
        (delaySamples dA d.sample_rate - d.buf.length)
      = d.buf_idx + d.buf.length - (delaySamples dA d.sample_rate - d.buf.length) := by
    rw [← hAeq]
    exact usizeSub_eq_sub _ _ hA2le hsz
  have hrB2 : usizeSub (d.buf_idx + d.buf.length)
        (delaySamples dB d.sample_rate - d.buf.length)
      = d.buf_idx + d.buf.length - (delaySamples dB d.sample_rate - d.buf.length) := by
    rw [← hBeq]
    exact usizeSub_eq_sub _ _ hB2le hsz
  have h1 : (d.buf_idx + d.buf.length - delaySamples dA d.sample_rate + 0) % d.buf.length
      = (d.buf_idx + d.buf.length - (delaySamples dA d.sample_rate - d.buf.length) + 0)
          % d.buf.length := by
    have e : d.buf_idx + d.buf.length - (delaySamples dA d.sample_rate - d.buf.length)
        = d.buf_idx + d.buf.length - delaySamples dA d.sample_rate + d.buf.length := by omega
    simp only [Nat.add_zero, e, Nat.add_mod_right]
  have h2 : (d.buf_idx + d.buf.length - delaySamples dB d.sample_rate + 0) % d.buf.length
      = (d.buf_idx + d.buf.length - (delaySamples dB d.sample_rate - d.buf.length) + 0)
          % d.buf.length := by
    have e : d.buf_idx + d.buf.length - (delaySamples dB d.sample_rate - d.buf.length)
        = d.buf_idx + d.buf.length - delaySamples dB d.sample_rate + d.buf.length := by omega
    simp only [Nat.add_zero, e, Nat.add_mod_right]
  simp only [Delay.run, hAeq, hBeq, hrA, hrB, hrA2, hrB2]
  rw [runFrames_congr d.buf.length
    (d.buf_idx + d.buf.length - delaySamples dA d.sample_rate)
    (d.buf_idx + d.buf.length - delaySamples dB d.sample_rate)
    d.buf_idx
    (d.buf_idx + d.buf.length - (delaySamples dA d.sample_rate - d.buf.length))
    (d.buf_idx + d.buf.length - (delaySamples dB d.sample_rate - d.buf.length))
    d.buf_idx mL mR input 0 0 d.buf h1 h2 rfl]

/-- Witness for the amended C3: sample rate 1 (buffer length 6), a 6 s delay
control (converting to 6 = L samples) against a 0 s control (6 - L samples). -/
theorem delay_beyond_buffer_aliases_witness :
    (0 < ((new_delay 1).activate).buf.length
        ∧ ((new_delay 1).activate).buf_idx + ((new_delay 1).activate).buf.length < USIZE
        ∧ delaySamples 6 ((new_delay 1).activate).sample_rate
            ≤ ((new_delay 1).activate).buf_idx + ((new_delay 1).activate).buf.length
        ∧ ((new_delay 1).activate).buf.length ≤ delaySamples 6 ((new_delay 1).activate).sample_rate
        ∧ delaySamples 0 ((new_delay 1).activate).sample_rate
            = delaySamples 6 ((new_delay 1).activate).sample_rate
                - ((new_delay 1).activate).buf.length)
      ∧ ((new_delay 1).activate).run [(7, 8)] 6 6 1 1
          = ((new_delay 1).activate).run [(7, 8)] 0 0 1 1 :=
  ⟨⟨by decide, by decide, by decide, by decide, by decide⟩,
   (delay_beyond_buffer_aliases ((new_delay 1).activate) [(7, 8)] 6 6 0 0 1 1
      (by decide) (by decide) (by decide) (by decide) (by decide) (by decide)
      (by decide) (by decide)).2⟩

theorem zero_writes_fixed (L k ii : ℕ) (b : List Frame)
    (h : ∀ j, j < k → b.getD ((ii + j) % L) (0, 0) = ((0 : Data), (0 : Data))) :
    writeFrames 0 L (List.replicate k ((0 : Data), (0 : Data))) ii b = b := by
  induction k generalizing ii b with
  | zero => rfl
  | succ n ih =>
      simp only [List.replicate, writeFrames]
      have h0 := h 0 (by omega)
      have e0 : ii + 0 = ii := by omega
      rw [e0] at h0
      have hset : b.set ((ii + 0) % L) ((0 : Data), (0 : Data)) = b := by
        rw [e0]
        conv_lhs => rw [← h0]
        exact set_getD_eq b _ _
      rw [hset]
      exact ih (ii + 1) b (fun j hj => by
        have hj1 := h (j + 1) (by omega)
        have e : ii + (j + 1) = ii + 1 + j := by omega
        rw [e] at hj1
        exact hj1)

theorem impulse_writes (L m : ℕ) (hL : 0 < L) (i : ℕ) (him : i ≤ m + 1) :
    writeFrames 0 L
        ((((1 : Data), (1 : Data)) :: List.replicate m ((0 : Data), (0 : Data))).take i) 0
        (List.replicate L ((0 : Data), (0 : Data)))
      = if i = 0 then List.replicate L ((0 : Data), (0 : Data))
        else if i ≤ L then
          (List.replicate L ((0 : Data), (0 : Data))).set 0 ((1 : Data), (1 : Data))
        else List.replicate L ((0 : Data), (0 : Data)) := by
  cases i with
  | zero => simp [writeFrames]
  | succ k =>
      have htake : ((((1 : Data), (1 : Data)) :: List.replicate m ((0 : Data), (0 : Data)))).take (k + 1)
          = ((1 : Data), (1 : Data)) :: List.replicate k ((0 : Data), (0 : Data)) := by
        rw [List.take_succ_cons, List.take_replicate]
        congr 2
        omega
      rw [htake]
      simp only [writeFrames, Nat.zero_add]
      rw [show (0 + 0) % L = 0 from by simp]
      rcases Nat.lt_or_ge k L with hkL | hkL
      · rw [zero_writes_fixed L k 1 _ (fun j hj => by
          rw [Nat.mod_eq_of_lt (by omega : 1 + j < L),
            getD_set_other _ _ _ _ _ (by omega)]
          exact getD_replicate_self _ _ _ _ (by omega))]
        rw [if_neg (by omega), if_pos (by omega)]
      · have hsplit : List.replicate k ((0 : Data), (0 : Data))
            = List.replicate (L - 1) ((0 : Data), (0 : Data))
                ++ ((0 : Data), (0 : Data)) :: List.replicate (k - L) ((0 : Data), (0 : Data)) := by
          have e : k = (L - 1) + ((k - L) + 1) := by omega
          conv_lhs => rw [e, List.replicate_add, List.replicate_succ]
        rw [hsplit, writeFrames_append, zero_writes_fixed L (L - 1) 1 _ (fun j hj => by
          rw [Nat.mod_eq_of_lt (by omega : 1 + j < L),
            getD_set_other _ _ _ _ _ (by omega)]
          exact getD_replicate_self _ _ _ _ (by omega))]
        rw [List.length_replicate]
        have eL : 1 + (L - 1) = L := by omega
        rw [eL]
        simp only [writeFrames]
        rw [show (L + 0) % L = 0 from by simp, List.set_set]
        have hset0 : (List.replicate L ((0 : Data), (0 : Data))).set 0 ((0 : Data), (0 : Data))
            = List.replicate L ((0 : Data), (0 : Data)) := by
          obtain ⟨n, rfl⟩ : ∃ n, L = n + 1 := ⟨L - 1, by omega⟩
          rw [List.replicate_succ]
          rfl
        rw [hset0, zero_writes_fixed L (k - L) (L + 1) _
          (fun j hj => getD_replicate_self _ _ _ _ (Nat.mod_lt _ (by omega)))]
        rw [if_neg (by omega), if_neg (by omega)]

/-- C6 counterexample: the claim admits `D = 0` (`D < L`), but with delay 0 s,
mix 1, and a one-frame impulse stream (length `1 ≥ D + 1`) on a fresh state the
output at frame `D = 0` is `(0, 0)`, not the impulse. -/
theorem impulse_zero_delay_counterexample :
    delaySamples 0 ((new_delay 1).activate).sample_rate = 0
      ∧ (0 : ℕ) < ((new_delay 1).activate).buf.length
      ∧ (((new_delay 1).activate).run [(1, 1)] 0 0 1 1).1 = [(0, 0)]
      ∧ (((new_delay 1).activate).run [(1, 1)] 0 0 1 1).1.getD 0 (0, 0)
          ≠ ((1 : Data), (1 : Data)) :=
  ⟨by decide, by decide, by decide, by decide⟩

/-- C6 amended (delay at least one sample): on a freshly activated state with
both mixes 1 and a delay converting to `D` samples, `1 ≤ D < L`, an impulse
stream of `m + 1 ≥ D + 1` frames produces amplitude `(1, 1)` exactly at output
frame `D` and `(0, 0)` at every other frame. -/
theorem impulse_response (sr m : ℕ) (dc : Data)
    (hsz : 5 * sr + 1 < USIZE)
    (hD1 : 1 ≤ delaySamples dc ((sr : ℕ) : ℚ))
    (hD2 : delaySamples dc ((sr : ℕ) : ℚ) < 5 * sr + 1)
    (hm : delaySamples dc ((sr : ℕ) : ℚ) ≤ m) :
    ((((new_delay sr).activate).run
          (((1 : Data), (1 : Data)) :: List.replicate m ((0 : Data), (0 : Data))) dc dc 1 1).1.length
        = m + 1)
      ∧ ∀ i, i < m + 1 →
          (((new_delay sr).activate).run
              (((1 : Data), (1 : Data)) :: List.replicate m ((0 : Data), (0 : Data)))
              dc dc 1 1).1.getD i (0, 0)
            = (if i = delaySamples dc ((sr : ℕ) : ℚ) then ((1 : Data), (1 : Data))
              else ((0 : Data), (0 : Data))) := by
  have h1 : ((new_delay sr).activate).buf_idx = 0 := rfl
  have h2 : ((new_delay sr).activate).sample_rate = ((sr : ℕ) : ℚ) := rfl
  have h3 := activate_buf_eq sr
  have hus : usizeSub (0 + (5 * sr + 1)) (delaySamples dc ((sr : ℕ) : ℚ))
      = 5 * sr + 1 - delaySamples dc ((sr : ℕ) : ℚ) := by
    rw [usizeSub_eq_sub _ _ (by omega) (by omega)]
    omega
  constructor
  · simp [Delay.run, runFrames_length]
  · intro i hi
    simp only [Delay.run, h1, h2, h3, List.length_replicate, hus]
    rw [runFrames_getD _ _ _ _ _ _ _ _ _ i
      (by simp only [List.length_cons, List.length_replicate]; omega)]
    simp only [Nat.zero_add]
    rw [impulse_writes (5 * sr + 1) m (by omega) i (by omega)]
    by_cases hi0 : i = 0
    · subst hi0
      rw [if_pos rfl, if_neg (by omega)]
      rw [show (5 * sr + 1 - delaySamples dc ((sr : ℕ) : ℚ) + 0) % (5 * sr + 1)
          = 5 * sr + 1 - delaySamples dc ((sr : ℕ) : ℚ) from by
        rw [Nat.add_zero, Nat.mod_eq_of_lt (by omega)]]
      rw [getD_replicate_self _ _ _ _ (by omega)]
      norm_num
    · rw [if_neg hi0]
      by_cases hiL : i ≤ 5 * sr + 1
      · rw [if_pos hiL]
        by_cases hid : i = delaySamples dc ((sr : ℕ) : ℚ)
        · rw [if_pos hid]
          rw [show (5 * sr + 1 - delaySamples dc ((sr : ℕ) : ℚ) + i) % (5 * sr + 1) = 0 from by
            rw [show 5 * sr + 1 - delaySamples dc ((sr : ℕ) : ℚ) + i = 5 * sr + 1 from by omega]
            exact Nat.mod_self _]
          rw [getD_set_self _ _ _ _ (by rw [List.length_replicate]; omega)]
          norm_num
        · rw [if_neg hid]
          have hne : (5 * sr + 1 - delaySamples dc ((sr : ℕ) : ℚ) + i) % (5 * sr + 1) ≠ 0 := by
            rcases Nat.lt_or_ge i (delaySamples dc ((sr : ℕ) : ℚ)) with hlt | hge
            · rw [Nat.mod_eq_of_lt (by omega)]
              omega
            · rw [show 5 * sr + 1 - delaySamples dc ((sr : ℕ) : ℚ) + i
                  = (i - delaySamples dc ((sr : ℕ) : ℚ)) + (5 * sr + 1) from by omega,
                Nat.add_mod_right, Nat.mod_eq_of_lt (by omega)]
              omega
          rw [getD_set_other _ _ _ _ _ (Ne.symm hne)]
          rw [getD_replicate_self _ _ _ _ (Nat.mod_lt _ (by omega))]
          norm_num
      · rw [if_neg hiL]
        rw [getD_replicate_self _ _ _ _ (Nat.mod_lt _ (by omega))]
        rw [if_neg (by omega)]
        norm_num

/-- Witness for the amended C6: sample rate 1, delay 2 s (2 samples), a 4-frame
impulse stream. -/
theorem impulse_response_witness :
    (5 * 1 + 1 < USIZE
        ∧ 1 ≤ delaySamples 2 ((1 : ℕ) : ℚ)
        ∧ delaySamples 2 ((1 : ℕ) : ℚ) < 5 * 1 + 1
        ∧ delaySamples 2 ((1 : ℕ) : ℚ) ≤ 3)
      ∧ (((new_delay 1).activate).run
            (((1 : Data), (1 : Data)) :: List.replicate 3 ((0 : Data), (0 : Data))) 2 2 1 1).1.length
          = 3 + 1 :=
  ⟨⟨by decide, by decide, by decide, by decide⟩,
   (impulse_response 1 3 2 (by decide) (by decide) (by decide) (by decide)).1⟩

theorem delay_ext (s t : Delay) (h1 : s.sample_rate = t.sample_rate)
    (h2 : s.buf = t.buf) (h3 : s.buf_idx = t.buf_idx) : s = t := by
  cases s
  cases t
  simp_all

theorem writeFrames_congr (L cur cur' : ℕ) (xs : List Frame) (ii ii' : ℕ) (b : List Frame)
    (h : (ii + cur) % L = (ii' + cur') % L) :
    writeFrames cur L xs ii b = writeFrames cur' L xs ii' b := by
  induction xs generalizing ii ii' b with
  | nil => rfl
  | cons f rest ih =>
      have hh : (ii + 1 + cur) % L = (ii' + 1 + cur') % L := by
        have h4 := congrArg (fun x => (x + 1) % L) h
        have e1 : ii + cur + 1 = ii + 1 + cur := by omega
        have e2 : ii' + cur' + 1 = ii' + 1 + cur' := by omega
        simpa [Nat.mod_add_mod, e1, e2] using h4
      simp only [writeFrames]
      rw [h, ih (ii + 1) (ii' + 1) _ hh]

theorem run_append (d : Delay) (xs ys : List Frame) (dl dr mL mR : Data)
    (hL : 0 < d.buf.length)
    (hcur : d.buf_idx < d.buf.length)
    (hsz : 2 * d.buf.length ≤ USIZE)
    (hDl : delaySamples dl d.sample_rate ≤ d.buf.length)
    (hDr : delaySamples dr d.sample_rate ≤ d.buf.length) :
    d.run (xs ++ ys) dl dr mL mR
      = ((d.run xs dl dr mL mR).1
           ++ (((d.run xs dl dr mL mR).2).run ys dl dr mL mR).1,
         (((d.run xs dl dr mL mR).2).run ys dl dr mL mR).2) := by
  have hrA : usizeSub (d.buf_idx + d.buf.length) (delaySamples dl d.sample_rate)
      = d.buf_idx + d.buf.length - delaySamples dl d.sample_rate :=
    usizeSub_eq_sub _ _ (by omega) (by omega)
  have hrB : usizeSub (d.buf_idx + d.buf.length) (delaySamples dr d.sample_rate)
      = d.buf_idx + d.buf.length - delaySamples dr d.sample_rate :=
    usizeSub_eq_sub _ _ (by omega) (by omega)
  have hm1 : (d.buf_idx + xs.length) % d.buf.length < d.buf.length := Nat.mod_lt _ hL
  have hrA2 : usizeSub ((d.buf_idx + xs.length) % d.buf.length + d.buf.length)
        (delaySamples dl d.sample_rate)
      = (d.buf_idx + xs.length) % d.buf.length + d.buf.length
          - delaySamples dl d.sample_rate :=
    usizeSub_eq_sub _ _ (by omega) (by omega)
  have hrB2 : usizeSub ((d.buf_idx + xs.length) % d.buf.length + d.buf.length)
        (delaySamples dr d.sample_rate)
      = (d.buf_idx + xs.length) % d.buf.length + d.buf.length
          - delaySamples dr d.sample_rate :=
    usizeSub_eq_sub _ _ (by omega) (by omega)
  have c3 : (0 + xs.length + d.buf_idx) % d.buf.length
      = (0 + (d.buf_idx + xs.length) % d.buf.length) % d.buf.length := by
    simp only [Nat.zero_add]
    rw [Nat.mod_eq_of_lt hm1, Nat.add_comm]
  have c1 : (d.buf_idx + d.buf.length - delaySamples dl d.sample_rate + (0 + xs.length))
        % d.buf.length
      = ((d.buf_idx + xs.length) % d.buf.length + d.buf.length
            - delaySamples dl d.sample_rate + 0) % d.buf.length := by
    simp only [Nat.zero_add, Nat.add_zero]
    have e1 : d.buf_idx + d.buf.length - delaySamples dl d.sample_rate + xs.length
        = d.buf_idx + xs.length + (d.buf.length - delaySamples dl d.sample_rate) := by omega
    have e2 : (d.buf_idx + xs.length) % d.buf.length + d.buf.length
          - delaySamples dl d.sample_rate
        = (d.buf_idx + xs.length) % d.buf.length
            + (d.buf.length - delaySamples dl d.sample_rate) := by omega
    rw [e1, e2, Nat.mod_add_mod]
  have c2 : (d.buf_idx + d.buf.length - delaySamples dr d.sample_rate + (0 + xs.length))
        % d.buf.length
      = ((d.buf_idx + xs.length) % d.buf.length + d.buf.length
            - delaySamples dr d.sample_rate + 0) % d.buf.length := by
    simp only [Nat.zero_add, Nat.add_zero]
    have e1 : d.buf_idx + d.buf.length - delaySamples dr d.sample_rate + xs.length
        = d.buf_idx + xs.length + (d.buf.length - delaySamples dr d.sample_rate) := by omega
    have e2 : (d.buf_idx + xs.length) % d.buf.length + d.buf.length
          - delaySamples dr d.sample_rate
        = (d.buf_idx + xs.length) % d.buf.length
            + (d.buf.length - delaySamples dr d.sample_rate) := by omega
    rw [e1, e2, Nat.mod_add_mod]
  have hidx : (d.buf_idx + (xs.length + ys.length)) % d.buf.length
      = ((d.buf_idx + xs.length) % d.buf.length + ys.length) % d.buf.length := by
    rw [Nat.mod_add_mod]
    congr 1
    omega
  simp only [Delay.run, runFrames_append, runFrames_snd, writeFrames_append,
    writeFrames_length, List.length_append, hrA, hrB, hrA2, hrB2]
  rw [runFrames_congr d.buf.length
      (d.buf_idx + d.buf.length - delaySamples dl d.sample_rate)
      (d.buf_idx + d.buf.length - delaySamples dr d.sample_rate)
      d.buf_idx
      ((d.buf_idx + xs.length) % d.buf.length + d.buf.length
        - delaySamples dl d.sample_rate)
      ((d.buf_idx + xs.length) % d.buf.length + d.buf.length
        - delaySamples dr d.sample_rate)
      ((d.buf_idx + xs.length) % d.buf.length) mL mR ys (0 + xs.length) 0 _ c1 c2 c3,
    writeFrames_congr d.buf.length d.buf_idx ((d.buf_idx + xs.length) % d.buf.length)
      ys (0 + xs.length) 0 _ c3,
    hidx]

/-- C4: processing a stream as any sequence of consecutive blocks with fixed
in-range control values produces exactly the same concatenated output and the
same final state (buffer and cursor) as processing the whole stream in one
block. -/
theorem block_size_invariance (d : Delay) (blocks : List (List Frame)) (dl dr mL mR : Data)
    (hL : 0 < d.buf.length) (hcur : d.buf_idx < d.buf.length)
    (hsz : 2 * d.buf.length ≤ USIZE)
    (hDl : delaySamples dl d.sample_rate ≤ d.buf.length)
    (hDr : delaySamples dr d.sample_rate ≤ d.buf.length) :
    runBlocks dl dr mL mR d blocks = d.run blocks.flatten dl dr mL mR := by
  induction blocks generalizing d with
  | nil =>
      simp only [runBlocks, List.flatten_nil]
      apply Prod.ext
      · rfl
      · apply delay_ext
        · rfl
        · rfl
        · show d.buf_idx = (d.buf_idx + ([] : List Frame).length) % d.buf.length
          rw [List.length_nil, Nat.add_zero, Nat.mod_eq_of_lt hcur]
  | cons b rest ih =>
      have hL1 : 0 < ((d.run b dl dr mL mR).2).buf.length := by
        rw [run_preserves_buf_length]
        exact hL
      have hcur1 : ((d.run b dl dr mL mR).2).buf_idx < ((d.run b dl dr mL mR).2).buf.length := by
        rw [run_preserves_buf_length]
        simp only [Delay.run]
        exact Nat.mod_lt _ hL
      have hsz1 : 2 * ((d.run b dl dr mL mR).2).buf.length ≤ USIZE := by
        rw [run_preserves_buf_length]
        exact hsz
      have hsr1 : ((d.run b dl dr mL mR).2).sample_rate = d.sample_rate := by
        simp [Delay.run]
      have hDl1 : delaySamples dl ((d.run b dl dr mL mR).2).sample_rate
          ≤ ((d.run b dl dr mL mR).2).buf.length := by
        rw [run_preserves_buf_length, hsr1]
        exact hDl
      have hDr1 : delaySamples dr ((d.run b dl dr mL mR).2).sample_rate
          ≤ ((d.run b dl dr mL mR).2).buf.length := by
        rw [run_preserves_buf_length, hsr1]
        exact hDr
      rw [List.flatten_cons, run_append d b rest.flatten dl dr mL mR hL hcur hsz hDl hDr]
      simp only [runBlocks]
      rw [ih ((d.run b dl dr mL mR).2) hL1 hcur1 hsz1 hDl1 hDr1]

/-- Witness for C4: sample rate 1, the 3-frame stream split as a 1-frame block
followed by a 2-frame block, delay controls 1 s and 0 s, both mixes 1/2. -/
theorem block_size_invariance_witness :
    (0 < ((new_delay 1).activate).buf.length
        ∧ ((new_delay 1).activate).buf_idx < ((new_delay 1).activate).buf.length
        ∧ 2 * ((new_delay 1).activate).buf.length ≤ USIZE
        ∧ delaySamples 1 ((new_delay 1).activate).sample_rate
            ≤ ((new_delay 1).activate).buf.length
        ∧ delaySamples 0 ((new_delay 1).activate).sample_rate
            ≤ ((new_delay 1).activate).buf.length)
      ∧ runBlocks 1 0 (1 / 2) (1 / 2) ((new_delay 1).activate) [[(1, 1)], [(2, 2), (3, 3)]]
          = ((new_delay 1).activate).run [(1, 1), (2, 2), (3, 3)] 1 0 (1 / 2) (1 / 2) :=
  ⟨⟨by decide, by decide, by decide, by decide, by decide⟩,
   block_size_invariance ((new_delay 1).activate) [[(1, 1)], [(2, 2), (3, 3)]] 1 0 (1 / 2) (1 / 2)
      (by decide) (by decide) (by decide) (by decide) (by decide)⟩

end LadspaDelay
